import Mathlib

/-!
# iDesk: ANCS notification retrieval and OLED layout (`src/laya_dicoba.cpp`)

A shallow embedding of the notification pipeline of `laya_dicoba.cpp`:

* `NotificationSourceNotifyCallback` (lines 138-154): the 8-byte event payload,
* `requestNotificationDetails` (lines 41-56): the 11-byte details request,
* `dataSourceNotifyCallback` (lines 156-217): the attribute record parser,
* `removeEmojis` (lines 59-67) and `displayNotification` (lines 71-134): the
  sanitiser and the fixed-width text layout.

Conventions of the embedding.

* A byte (`uint8_t`, and the storage of a `char`) is a `Fin 256`; a `std::string` is the
  list of its bytes.
* The four global variables of the program are the fields of `Globals`; a callback is a
  function from the globals before the call to the globals after it.
* `pData`/`length` is a list of bytes (`length` is its length) together with a function
  `beyond` giving the contents of the memory that follows the buffer: the source reads
  through raw pointers, so a read at an index `>= length` returns whatever is stored
  there.  The indices read are recorded, so that out-of-bounds reads can be stated.
* Loops take a fuel argument and return `none` when the fuel runs out; the callers pass
  the length of the text or buffer, which is shown to be enough.
* `int`/`size_t` values are natural numbers: `yOffset` only grows from 12 to at most 76,
  and `index` stays below `length + 65538`, so no 32-bit value wraps for any buffer that
  fits the device.  `64 - yOffset` is evaluated only under the guard `yOffset < 54`.
* `Serial` logging and `delay` are left out.
-/

namespace IDesk

/-- One `uint8_t` (also the storage of one `char`). -/
abbrev Byte := Fin 256

/-- The contents of a `std::string`: its bytes, in order. -/
abbrev Text := List Byte

/-- The global variables of lines 35-38. -/
structure Globals where
  latestMessageID : Byte × Byte × Byte × Byte
  pendingNotification : Bool
  notificationTitle : Text
  notificationMessage : Text
deriving DecidableEq, Repr

/-- Initial values of the globals (lines 35-38; `latestMessageID` is zero-initialised). -/
def initialGlobals : Globals :=
  { latestMessageID := (0, 0, 0, 0)
    pendingNotification := false
    notificationTitle := []
    notificationMessage := [] }

/-- The value of `*(uint32_t*)b` for four consecutive bytes `b0 b1 b2 b3` on the
little-endian target. -/
def readU32 (b0 b1 b2 b3 : Byte) : Nat :=
  b0.val + 256 * b1.val + 65536 * b2.val + 16777216 * b3.val

/-- The value of `*(uint16_t*)b` for two consecutive bytes `b0 b1` on the little-endian
target. -/
def readU16 (b0 b1 : Byte) : Nat :=
  b0.val + 256 * b1.val

/-- The expression `*(uint32_t*)latestMessageID` of lines 151 and 270: the pending uid. -/
def pendingUid (g : Globals) : Nat :=
  readU32 g.latestMessageID.1 g.latestMessageID.2.1 g.latestMessageID.2.2.1
    g.latestMessageID.2.2.2

/-- The conversion `(uint8_t)n`. -/
def toUint8 (n : Nat) : Byte := ⟨n % 256, Nat.mod_lt n (by decide)⟩

/-! ## Event listener -/

/-- Lines 138-154.  A payload shorter than 8 bytes is dropped; otherwise bytes 4..7 are
stored in `latestMessageID` and `pendingNotification` is set. -/
def NotificationSourceNotifyCallback (g : Globals) (pData : List Byte) : Globals :=
  if h : pData.length < 8 then g
  else
    { g with
      latestMessageID :=
        (pData.get ⟨4, by omega⟩, pData.get ⟨5, by omega⟩,
         pData.get ⟨6, by omega⟩, pData.get ⟨7, by omega⟩)
      pendingNotification := true }

/-! ## Detail requester -/

/-- Lines 41-56.  The argument `pControlPointCharacteristic` says whether the pointer is
non-null; the result is the byte array handed to `writeValue` (with response requested),
or `none` when the function returns early.  `notificationUID` is a `uint32_t`. -/
def requestNotificationDetails (pControlPointCharacteristic : Bool) (notificationUID : Nat) :
    Option (List Byte) :=
  if !pControlPointCharacteristic then none
  else
    some
      [0x00,
       toUint8 (notificationUID &&& 0xFF),
       toUint8 ((notificationUID >>> 8) &&& 0xFF),
       toUint8 ((notificationUID >>> 16) &&& 0xFF),
       toUint8 ((notificationUID >>> 24) &&& 0xFF),
       0x01, 0x1F, 0x00,
       0x03, 0x1F, 0x00]

/-! ## Sanitiser -/

/-- The value of a `char` holding byte `c`: with a signed `char` the bytes 128..255 are
negative.  Which of the two holds is fixed by the compiler, so it is a parameter. -/
def charValue (charIsSigned : Bool) (c : Byte) : Int :=
  if charIsSigned ∧ 128 ≤ c.val then (c.val : Int) - 256 else (c.val : Int)

/-- Lines 59-67: append to `cleanText` every `c` with `c >= 32 && c <= 126`. -/
def removeEmojis (charIsSigned : Bool) (text : Text) : Text :=
  text.foldl
    (fun cleanText c =>
      if 32 ≤ charValue charIsSigned c ∧ charValue charIsSigned c ≤ 126 then cleanText ++ [c]
      else cleanText)
    []

/-! ## Renderer -/

/-- The chunk loop of lines 92-98 (title) and 123-129 (message), which are the same loop:
`for (i; i < text.length(); i += 21)` writes `text.substr(i, 21)` at row `yOffset`, adds
10 to `yOffset` and breaks once `yOffset >= 64`.  The result is the list of rows written,
each with its row offset, and the final `yOffset`; `none` when the fuel runs out. -/
def printLines (text : Text) : Nat → Nat → Nat → Option (List (Nat × Text) × Nat)
  | 0, i, yOffset => if i < text.length then none else some ([], yOffset)
  | fuel + 1, i, yOffset =>
    if i < text.length then
      let line := (text.drop i).take 21
      if yOffset + 10 ≥ 64 then some ([(yOffset, line)], yOffset + 10)
      else
        match printLines text fuel (i + 21) (yOffset + 10) with
        | none => none
        | some (rows, y) => some ((yOffset, line) :: rows, y)
    else some ([], yOffset)

/-- What one call of `displayNotification` puts on the display, and the intermediate
values the layout goes through. -/
structure Rendered where
  /-- Rows written by the title loop (row offset, text). -/
  titleRows : List (Nat × Text)
  /-- The value of `yOffset` after line 102: where the message would start. -/
  messageStart : Nat
  /-- The message after the truncation step of lines 114-120; `none` when the message
  block is not entered. -/
  messageText : Option Text
  /-- Rows written by the message loop (row offset, text). -/
  messageRows : List (Nat × Text)
deriving DecidableEq, Repr

/-- The string literal `"..."`. -/
def ellipsis : Text := [46, 46, 46]

/-- Lines 109-120, the truncation step: with `maxChars = ((64 - yOffset) / 10) * 21`, a
message longer than `maxChars` is cut to `maxChars - 3` characters followed by `"..."`
(to `maxChars` characters when `maxChars <= 3`). -/
def truncateMessage (yOffset : Nat) (message : Text) : Text :=
  let availableLines := (64 - yOffset) / 10
  let maxLineLength := 21
  let maxChars := availableLines * maxLineLength
  if message.length > maxChars then
    if maxChars > 3 then message.take (maxChars - 3) ++ ellipsis
    else message.take maxChars
  else message

/-- Lines 71-134. -/
def displayNotification (charIsSigned : Bool) (title message : Text) : Option Rendered :=
  let yOffset := 12
  let title := removeEmojis charIsSigned title
  let message := removeEmojis charIsSigned message
  match (if title ≠ [] then printLines title title.length 0 yOffset else some ([], yOffset)) with
  | none => none
  | some (titleRows, yOffset) =>
    let yOffset := yOffset + 4
    if message ≠ [] ∧ yOffset < 54 then
      let message := truncateMessage yOffset message
      match printLines message message.length 0 yOffset with
      | none => none
      | some (messageRows, _) =>
        some
          { titleRows := titleRows, messageStart := yOffset
            messageText := some message, messageRows := messageRows }
    else
      some { titleRows := titleRows, messageStart := yOffset, messageText := none, messageRows := [] }

/-- The calls made on `u8g2`, in order. -/
inductive DrawOp where
  | clearDisplay
  | setCursor (x y : Nat)
  | print (s : Text)
  | display
deriving DecidableEq, Repr

/-- The text `"New Notification:"` of line 78. -/
def headerText : Text :=
  [78, 101, 119, 32, 78, 111, 116, 105, 102, 105, 99, 97, 116, 105, 111, 110, 58]

/-- The `u8g2` calls of one `displayNotification` (lines 74-78, 94-95, 125-126, 132). -/
def Rendered.ops (r : Rendered) : List DrawOp :=
  [DrawOp.clearDisplay, DrawOp.setCursor 0 0, DrawOp.print headerText]
    ++ (r.titleRows.map fun row => [DrawOp.setCursor 0 row.1, DrawOp.print row.2]).flatten
    ++ (r.messageRows.map fun row => [DrawOp.setCursor 0 row.1, DrawOp.print row.2]).flatten
    ++ [DrawOp.display]

/-! ## Attribute stream parser -/

/-- The byte `pData[i]`: inside the buffer the payload byte, past its end whatever the
memory behind the buffer holds. -/
def readByte (pData : List Byte) (beyond : Nat → Byte) (i : Nat) : Byte :=
  (pData[i]?).getD (beyond (i - pData.length))

/-- The conversion `std::string(value.data())` from a character buffer: the bytes before
the first zero byte. -/
def cString (value : List Byte) : Text :=
  value.takeWhile (fun b => b ≠ 0)

/-- One pass through the body of the record loop. -/
structure Step where
  /-- The globals after the pass. -/
  globals : Globals
  /-- The indices of `pData` read during the pass, in order. -/
  reads : List Nat
  /-- The value of `index` after line 202. -/
  next : Nat

/-- The body of the record loop, lines 174-202, run at `index`. -/
def attributeStep (pData : List Byte) (beyond : Nat → Byte) (index : Nat) (g : Globals) : Step :=
  let attributeID := readByte pData beyond index
  let attributeLength :=
    readU16 (readByte pData beyond (index + 1)) (readByte pData beyond (index + 2))
  if attributeLength > 0 ∧ index + 3 + attributeLength ≤ pData.length then
    -- `value(attributeLength + 1, 0)` then `memcpy` of `attributeLength` bytes
    let value := (pData.drop (index + 3)).take attributeLength ++ [0]
    { globals :=
        if attributeID = 1 then { g with notificationTitle := cString value }
        else if attributeID = 3 then { g with notificationMessage := cString value }
        else g
      reads := [index, index + 1, index + 2] ++ List.range' (index + 3) attributeLength
      next := index + 3 + attributeLength }
  else
    { globals := g
      reads := [index, index + 1, index + 2]
      next := index + 3 + attributeLength }

/-- The `while (index < length)` loop of lines 173-203.  The result is the globals after
the loop and the indices of `pData` read, in order; `none` when the fuel runs out. -/
def attributeLoop (pData : List Byte) (beyond : Nat → Byte) :
    Nat → Nat → Globals → Option (Globals × List Nat)
  | 0, index, g => if index < pData.length then none else some (g, [])
  | fuel + 1, index, g =>
    if index < pData.length then
      match attributeLoop pData beyond fuel (attributeStep pData beyond index g).next
          (attributeStep pData beyond index g).globals with
      | none => none
      | some (g2, rs) => some (g2, (attributeStep pData beyond index g).reads ++ rs)
    else some (g, [])

/-- What one call of `dataSourceNotifyCallback` leaves behind. -/
structure DataSourceResult where
  /-- The globals after the call. -/
  globals : Globals
  /-- The value read into `receivedUID` (line 169). -/
  receivedUID : Nat
  /-- The indices of `pData` read from line 169 to the end of the record loop. -/
  reads : List Nat
  /-- The rendering, when `displayNotification` is called (line 208). -/
  screen : Option Rendered
deriving DecidableEq, Repr

/-- Lines 156-217.  The hex dump of lines 163-165 reads only indices below `length` and
is left out, and so are the dwell and the clearing of the display of lines 211-215. -/
def dataSourceNotifyCallback (charIsSigned : Bool) (beyond : Nat → Byte) (g : Globals)
    (pData : List Byte) : Option DataSourceResult :=
  let receivedUID :=
    readU32 (readByte pData beyond 1) (readByte pData beyond 2) (readByte pData beyond 3)
      (readByte pData beyond 4)
  match attributeLoop pData beyond pData.length 5 g with
  | none => none
  | some (g1, rs) =>
    if g1.notificationTitle ≠ [] ∨ g1.notificationMessage ≠ [] then
      match displayNotification charIsSigned g1.notificationTitle g1.notificationMessage with
      | none => none
      | some r =>
        some { globals := g1, receivedUID := receivedUID, reads := [1, 2, 3, 4] ++ rs, screen := some r }
    else
      some { globals := g1, receivedUID := receivedUID, reads := [1, 2, 3, 4] ++ rs, screen := none }

/-! ## Encoding of well-formed responses (used to state the parser theorems) -/

/-- The little-endian bytes of a 32-bit value. -/
def le32 (n : Nat) : List Byte :=
  [toUint8 n, toUint8 (n / 256), toUint8 (n / 65536), toUint8 (n / 16777216)]

/-- The little-endian bytes of a 16-bit value. -/
def le16 (n : Nat) : List Byte :=
  [toUint8 n, toUint8 (n / 256)]

/-- One attribute record on the wire: id, little-endian length, value. -/
def encodeRecord (r : Byte × Text) : List Byte :=
  r.1 :: (le16 r.2.length ++ r.2)

/-- A sequence of attribute records on the wire. -/
def encodeRecords (rs : List (Byte × Text)) : List Byte :=
  (rs.map encodeRecord).flatten

/-! ## Definitions used to state the parser theorems -/

/-- What a complete record does to the globals: a non-empty value with id 1 (3) replaces
the title (message) by the bytes of the value before its first zero byte. -/
def applyRecord (r : Byte × Text) (g : Globals) : Globals :=
  if r.2 = [] then g
  else if r.1 = 1 then { g with notificationTitle := r.2.takeWhile (fun b => b ≠ 0) }
  else if r.1 = 3 then { g with notificationMessage := r.2.takeWhile (fun b => b ≠ 0) }
  else g

/-- The effect of a sequence of complete records, first to last. -/
def applyRecords (rs : List (Byte × Text)) (g : Globals) : Globals :=
  rs.foldl (fun g r => applyRecord r g) g

/-- The records a response holds, read off the wire format: starting at `bytes` (the
payload after its 5-byte header), an id byte, a little-endian 16-bit length and that many
value bytes, repeated; the walk ends at the first record whose header or value does not
fit.  The result is the complete records, in order, and the bytes left over. -/
def splitRecords : Nat → List Byte → List (Byte × Text) × List Byte
  | fuel + 1, id :: l0 :: l1 :: rest =>
    if readU16 l0 l1 ≤ rest.length then
      ((id, rest.take (readU16 l0 l1)) :: (splitRecords fuel (rest.drop (readU16 l0 l1))).1,
        (splitRecords fuel (rest.drop (readU16 l0 l1))).2)
    else ([], id :: l0 :: l1 :: rest)
  | _, bytes => ([], bytes)

/-- The complete records of a response payload, in order. -/
def completeRecords (p : List Byte) : List (Byte × Text) :=
  (splitRecords (p.drop 5).length (p.drop 5)).1

/-- The text a run of records stores for attribute `id`: the value, up to its first zero
byte, of the last record with that id and a non-empty value; `none` when there is no such
record. -/
def lastStored (id : Byte) : List (Byte × Text) → Option Text
  | [] => none
  | r :: rs =>
    match lastStored id rs with
    | some s => some s
    | none => if r.1 = id ∧ r.2 ≠ [] then some (r.2.takeWhile (fun b => b ≠ 0)) else none

/-! ## Theorems: event listener, detail requester and sanitiser -/

theorem toUint8_val (n : Nat) : (toUint8 n).val = n % 256 := rfl

theorem readU32_le32 (n : Nat) (h : n < 2 ^ 32) :
    readU32 (toUint8 n) (toUint8 (n / 256)) (toUint8 (n / 65536)) (toUint8 (n / 16777216)) = n := by
  simp only [readU32, toUint8_val]
  omega

theorem land_255 (n : Nat) : n &&& 0xFF = n % 256 := by
  have := Nat.and_pow_two_sub_one_eq_mod n 8
  simpa using this

/-- Claim C5.  For every event payload `p` handled by `NotificationSourceNotifyCallback`:
when `p` is shorter than 8 bytes the globals (pending uid and pending flag among them) are
left as they were; when `p` has at least 8 bytes the pending flag is set and the recorded
uid is `p[4] + 256*p[5] + 65536*p[6] + 16777216*p[7]`, whatever was pending before (title
and message are not touched). -/
theorem notificationSource_event (g : Globals) (p : List Byte) :
    (p.length < 8 → NotificationSourceNotifyCallback g p = g) ∧
    (∀ h : 8 ≤ p.length,
      (NotificationSourceNotifyCallback g p).pendingNotification = true ∧
      pendingUid (NotificationSourceNotifyCallback g p) =
        (p.get ⟨4, by omega⟩).val + 256 * (p.get ⟨5, by omega⟩).val
          + 65536 * (p.get ⟨6, by omega⟩).val + 16777216 * (p.get ⟨7, by omega⟩).val ∧
      (NotificationSourceNotifyCallback g p).notificationTitle = g.notificationTitle ∧
      (NotificationSourceNotifyCallback g p).notificationMessage = g.notificationMessage) := by
  constructor
  · intro h
    simp [NotificationSourceNotifyCallback, h]
  · intro h
    have h' : ¬ p.length < 8 := by omega
    simp [NotificationSourceNotifyCallback, h', pendingUid, readU32]

/-- Witness for C5: a 4-byte payload changes nothing, and the payload
`[0,0,0,0, 0x2A,0,0,0]` sets the pending flag and records uid 42. -/
theorem notificationSource_event_witness :
    NotificationSourceNotifyCallback initialGlobals [0, 0, 0, 0] = initialGlobals ∧
    (NotificationSourceNotifyCallback initialGlobals
      [0, 0, 0, 0, 0x2A, 0, 0, 0]).pendingNotification = true ∧
    pendingUid (NotificationSourceNotifyCallback initialGlobals [0, 0, 0, 0, 0x2A, 0, 0, 0])
      = 42 :=
  ⟨(notificationSource_event initialGlobals [0, 0, 0, 0]).1 (by decide),
   ((notificationSource_event initialGlobals [0, 0, 0, 0, 0x2A, 0, 0, 0]).2 (by decide)).1,
   ((notificationSource_event initialGlobals [0, 0, 0, 0, 0x2A, 0, 0, 0]).2
      (by decide)).2.1.trans (by decide)⟩

/-- Claim C6.  For every 32-bit `uid` the request written by `requestNotificationDetails`
is the 11 bytes `[0x00, uid0, uid1, uid2, uid3, 0x01, 0x1F, 0x00, 0x03, 0x1F, 0x00]` with
`uid0..uid3` the bytes of `uid`, least significant first, so that reading bytes 1..4 back
as a little-endian 32-bit value gives `uid`. -/
theorem requestNotificationDetails_bytes (uid : Nat) (h : uid < 2 ^ 32) :
    requestNotificationDetails true uid =
      some [0x00, toUint8 uid, toUint8 (uid / 256), toUint8 (uid / 65536),
        toUint8 (uid / 16777216), 0x01, 0x1F, 0x00, 0x03, 0x1F, 0x00] ∧
    (∀ req, requestNotificationDetails true uid = some req →
      req.length = 11 ∧
      readU32 (req.getD 1 0) (req.getD 2 0) (req.getD 3 0) (req.getD 4 0) = uid) := by
  have e : requestNotificationDetails true uid =
      some [0x00, toUint8 uid, toUint8 (uid / 256), toUint8 (uid / 65536),
        toUint8 (uid / 16777216), 0x01, 0x1F, 0x00, 0x03, 0x1F, 0x00] := by
    simp only [requestNotificationDetails, land_255, Nat.shiftRight_eq_div_pow]
    simp [toUint8, Fin.ext_iff]
  refine ⟨e, ?_⟩
  intro req hreq
  rw [e] at hreq
  cases hreq
  exact ⟨rfl, readU32_le32 uid h⟩

/-- Witness for C6: uid 42 gives `[0x00,0x2A,0,0,0, 0x01,0x1F,0x00, 0x03,0x1F,0x00]`. -/
theorem requestNotificationDetails_witness :
    requestNotificationDetails true 42
      = some [0x00, 0x2A, 0, 0, 0, 0x01, 0x1F, 0x00, 0x03, 0x1F, 0x00] :=
  (requestNotificationDetails_bytes 42 (by decide)).1.trans (by decide)

theorem printable_iff (charIsSigned : Bool) (c : Byte) :
    (32 ≤ charValue charIsSigned c ∧ charValue charIsSigned c ≤ 126) ↔
      (32 ≤ c.val ∧ c.val ≤ 126) := by
  have hc := c.isLt
  unfold charValue
  split <;> omega

theorem removeEmojis_foldl (charIsSigned : Bool) (text acc : Text) :
    text.foldl
      (fun cleanText c =>
        if 32 ≤ charValue charIsSigned c ∧ charValue charIsSigned c ≤ 126 then cleanText ++ [c]
        else cleanText) acc
      = acc ++ text.filter (fun c => decide (32 ≤ c.val ∧ c.val ≤ 126)) := by
  induction text generalizing acc with
  | nil => simp
  | cons c cs ih =>
    rw [List.foldl_cons, ih]
    by_cases hc : 32 ≤ c.val ∧ c.val ≤ 126
    · have := (printable_iff charIsSigned c).2 hc
      simp [this, hc, List.filter_cons]
    · have : ¬ (32 ≤ charValue charIsSigned c ∧ charValue charIsSigned c ≤ 126) :=
        fun h => hc ((printable_iff charIsSigned c).1 h)
      simp [this, hc, List.filter_cons]

/-- Claim C9.  For every text `s`, with a signed or an unsigned `char`, `removeEmojis s` is
`s` with the bytes outside 32..126 removed and the other bytes kept in their order. -/
theorem removeEmojis_eq_filter (charIsSigned : Bool) (s : Text) :
    removeEmojis charIsSigned s = s.filter (fun c => decide (32 ≤ c.val ∧ c.val ≤ 126)) := by
  simp [removeEmojis, removeEmojis_foldl]

/-! ## Theorems: renderer -/

/-- Enough fuel: the chunk loop returns. -/
theorem printLines_total (text : Text) :
    ∀ (fuel i y : Nat), text.length ≤ i + 21 * fuel →
      ∃ rows y1, printLines text fuel i y = some (rows, y1) := by
  intro fuel
  induction fuel with
  | zero =>
    intro i y h
    have : ¬ i < text.length := by omega
    exact ⟨[], y, by simp [printLines, this]⟩
  | succ n ih =>
    intro i y h
    by_cases hi : i < text.length
    · by_cases hy : y + 10 ≥ 64
      · exact ⟨[(y, (text.drop i).take 21)], y + 10, by simp [printLines, hi, hy]⟩
      · obtain ⟨rows, y1, hr⟩ := ih (i + 21) (y + 10) (by omega)
        exact ⟨(y, (text.drop i).take 21) :: rows, y1, by simp [printLines, hi, hy, hr]⟩
    · exact ⟨[], y, by simp [printLines, hi]⟩

/-- The first row is written at the starting offset and the loop leaves `yOffset` ten
below the last row written. -/
theorem printLines_rows (text : Text) :
    ∀ (fuel i y : Nat) (rows : List (Nat × Text)) (y1 : Nat),
      printLines text fuel i y = some (rows, y1) → i < text.length →
      (∃ rest, rows = (y, (text.drop i).take 21) :: rest) ∧
      ∃ last, rows.getLast? = some last ∧ y1 = last.1 + 10 := by
  intro fuel
  induction fuel with
  | zero =>
    intro i y rows y1 h hi
    simp [printLines, hi] at h
  | succ n ih =>
    intro i y rows y1 h hi
    by_cases hy : y + 10 ≥ 64
    · simp [printLines, hi, hy] at h
      obtain ⟨h1, h2⟩ := h
      subst h1 h2
      exact ⟨⟨[], rfl⟩, ⟨_, rfl, rfl⟩⟩
    · simp only [printLines, hi, hy, if_true, if_false] at h
      cases hr : printLines text n (i + 21) (y + 10) with
      | none => simp [hr] at h
      | some res =>
        obtain ⟨rows2, y2⟩ := res
        simp [hr] at h
        obtain ⟨h1, h2⟩ := h
        subst h1 h2
        refine ⟨⟨rows2, rfl⟩, ?_⟩
        by_cases hi2 : i + 21 < text.length
        · obtain ⟨⟨rest, hrest⟩, last, hl, hy2⟩ := ih _ _ _ _ hr hi2
          refine ⟨last, ?_, hy2⟩
          rw [hrest] at hl ⊢
          simpa [List.getLast?_cons_cons] using hl
        · cases n with
          | zero =>
            simp [printLines, hi2] at hr
            obtain ⟨h1, h2⟩ := hr
            subst h1 h2
            exact ⟨_, rfl, rfl⟩
          | succ m =>
            simp [printLines, hi2] at hr
            obtain ⟨h1, h2⟩ := hr
            subst h1 h2
            exact ⟨_, rfl, rfl⟩

/-- When the text left fits the rows left, the rows written hold all of it. -/
theorem printLines_complete (text : Text) :
    ∀ (fuel i y k : Nat) (rows : List (Nat × Text)) (y1 : Nat),
      printLines text fuel i y = some (rows, y1) →
      text.length - i ≤ 21 * k → y + 10 * k ≤ 73 →
      (rows.map Prod.snd).flatten = text.drop i := by
  intro fuel
  induction fuel with
  | zero =>
    intro i y k rows y1 h _ _
    by_cases hi : i < text.length
    · simp [printLines, hi] at h
    · simp [printLines, hi] at h
      obtain ⟨h1, _⟩ := h
      subst h1
      simp [List.drop_eq_nil_of_le (Nat.le_of_not_lt hi)]
  | succ n ih =>
    intro i y k rows y1 h hk hy73
    by_cases hi : i < text.length
    · by_cases hy : y + 10 ≥ 64
      · simp [printLines, hi, hy] at h
        rw [← h.1]
        have hlen : (text.drop i).length ≤ 21 := by
          simp only [List.length_drop]; omega
        simp [List.take_of_length_le hlen]
      · simp only [printLines, hi, hy, if_true, if_false] at h
        cases hr : printLines text n (i + 21) (y + 10) with
        | none => simp [hr] at h
        | some res =>
          obtain ⟨rows2, y2⟩ := res
          simp [hr] at h
          obtain ⟨h1, h2⟩ := h
          subst h1 h2
          have := ih (i + 21) (y + 10) (k - 1) rows2 y2 hr (by omega) (by omega)
          simp only [List.map_cons, List.flatten_cons, this]
          rw [← List.drop_drop]
          exact List.take_append_drop 21 (text.drop i)
    · simp [printLines, hi] at h
      obtain ⟨h1, _⟩ := h
      subst h1
      simp [List.drop_eq_nil_of_le (Nat.le_of_not_lt hi)]

/-- The loop writes no more rows than the text left has chunks of 21 characters. -/
theorem printLines_count (text : Text) :
    ∀ (fuel i y : Nat) (rows : List (Nat × Text)) (y1 : Nat),
      printLines text fuel i y = some (rows, y1) →
      rows.length * 21 < (text.length - i) + 21 := by
  intro fuel
  induction fuel with
  | zero =>
    intro i y rows y1 h
    by_cases hi : i < text.length
    · simp [printLines, hi] at h
    · simp [printLines, hi] at h
      obtain ⟨h1, _⟩ := h
      subst h1
      simp
  | succ n ih =>
    intro i y rows y1 h
    by_cases hi : i < text.length
    · by_cases hy : y + 10 ≥ 64
      · simp [printLines, hi, hy] at h
        obtain ⟨h1, _⟩ := h
        subst h1
        simp only [List.length_cons, List.length_nil]
        omega
      · simp only [printLines, hi, hy, if_true, if_false] at h
        cases hr : printLines text n (i + 21) (y + 10) with
        | none => simp [hr] at h
        | some res =>
          obtain ⟨rows2, y2⟩ := res
          simp [hr] at h
          obtain ⟨h1, h2⟩ := h
          subst h1 h2
          have := ih (i + 21) (y + 10) rows2 y2 hr
          simp only [List.length_cons]
          omega
    · simp [printLines, hi] at h
      obtain ⟨h1, _⟩ := h
      subst h1
      simp

/-- The truncation step: length and shape of its result. -/
theorem truncateMessage_spec (yOffset : Nat) (message : Text) :
    (message.length > (64 - yOffset) / 10 * 21 →
      (truncateMessage yOffset message).length = (64 - yOffset) / 10 * 21 ∧
      ((64 - yOffset) / 10 * 21 > 3 →
        truncateMessage yOffset message
          = message.take ((64 - yOffset) / 10 * 21 - 3) ++ ellipsis)) ∧
    (¬ message.length > (64 - yOffset) / 10 * 21 →
      truncateMessage yOffset message = message) := by
  constructor
  · intro h
    by_cases h3 : (64 - yOffset) / 10 * 21 > 3
    · refine ⟨?_, fun _ => by simp [truncateMessage, h, h3]⟩
      simp only [truncateMessage, h, h3, if_true, List.length_append, List.length_take, ellipsis,
        List.length_cons, List.length_nil]
      omega
    · refine ⟨?_, fun h' => absurd h' h3⟩
      simp only [truncateMessage, h, h3, if_true, if_false, List.length_take]
      omega
  · intro h
    simp [truncateMessage, h]

theorem truncateMessage_length_le (yOffset : Nat) (message : Text) :
    (truncateMessage yOffset message).length ≤ (64 - yOffset) / 10 * 21 := by
  by_cases h : message.length > (64 - yOffset) / 10 * 21
  · exact le_of_eq ((truncateMessage_spec yOffset message).1 h).1
  · rw [(truncateMessage_spec yOffset message).2 h]
    omega

theorem truncateMessage_ne_nil (yOffset : Nat) (message : Text) (hm : message ≠ [])
    (hy : yOffset < 54) : truncateMessage yOffset message ≠ [] := by
  have hpos : 0 < message.length := List.length_pos.2 hm
  have hmax : 21 ≤ (64 - yOffset) / 10 * 21 := by
    have : 1 ≤ (64 - yOffset) / 10 := by omega
    omega
  intro hnil
  by_cases h : message.length > (64 - yOffset) / 10 * 21
  · have := ((truncateMessage_spec yOffset message).1 h).1
    rw [hnil] at this
    simp at this
    omega
  · rw [(truncateMessage_spec yOffset message).2 h] at hnil
    exact hm hnil

/-- The two ways `displayNotification` ends: with the message block entered, or not. -/
theorem displayNotification_cases (charIsSigned : Bool) (title message : Text) :
    ∃ titleRows y,
      (if removeEmojis charIsSigned title ≠ [] then
          printLines (removeEmojis charIsSigned title) (removeEmojis charIsSigned title).length 0 12
        else some ([], 12)) = some (titleRows, y) ∧
      ((removeEmojis charIsSigned message ≠ [] ∧ y + 4 < 54 ∧
          ∃ rows y2,
            printLines (truncateMessage (y + 4) (removeEmojis charIsSigned message))
              (truncateMessage (y + 4) (removeEmojis charIsSigned message)).length 0 (y + 4)
              = some (rows, y2) ∧
            displayNotification charIsSigned title message =
              some
                { titleRows := titleRows, messageStart := y + 4
                  messageText := some (truncateMessage (y + 4) (removeEmojis charIsSigned message))
                  messageRows := rows }) ∨
        (¬ (removeEmojis charIsSigned message ≠ [] ∧ y + 4 < 54) ∧
          displayNotification charIsSigned title message =
            some { titleRows := titleRows, messageStart := y + 4, messageText := none, messageRows := [] })) := by
  have ht : ∃ titleRows y,
      (if removeEmojis charIsSigned title ≠ [] then
          printLines (removeEmojis charIsSigned title) (removeEmojis charIsSigned title).length 0 12
        else some ([], 12)) = some (titleRows, y) := by
    by_cases h : removeEmojis charIsSigned title ≠ []
    · obtain ⟨rows, y, hr⟩ :=
        printLines_total (removeEmojis charIsSigned title)
          (removeEmojis charIsSigned title).length 0 12 (by omega)
      exact ⟨rows, y, by rw [if_pos h, hr]⟩
    · exact ⟨[], 12, by rw [if_neg h]⟩
  obtain ⟨titleRows, y, hty⟩ := ht
  refine ⟨titleRows, y, hty, ?_⟩
  by_cases hm : removeEmojis charIsSigned message ≠ [] ∧ y + 4 < 54
  · left
    obtain ⟨rows, y2, hr⟩ :=
      printLines_total (truncateMessage (y + 4) (removeEmojis charIsSigned message))
        (truncateMessage (y + 4) (removeEmojis charIsSigned message)).length 0 (y + 4) (by omega)
    refine ⟨hm.1, hm.2, rows, y2, hr, ?_⟩
    unfold displayNotification
    simp only [hty]
    rw [if_pos hm]
    simp only [hr]
  · right
    refine ⟨hm, ?_⟩
    unfold displayNotification
    simp only [hty]
    rw [if_neg hm]

/-- The renderer always returns. -/
theorem displayNotification_total (charIsSigned : Bool) (title message : Text) :
    ∃ r, displayNotification charIsSigned title message = some r := by
  obtain ⟨_, _, _, h | h⟩ := displayNotification_cases charIsSigned title message
  · obtain ⟨_, _, _, _, _, hd⟩ := h
    exact ⟨_, hd⟩
  · exact ⟨_, h.2⟩

/-- Claim C7.  Truncation law of `displayNotification`.  The renderer returns; the message
is laid out exactly when the sanitised message is non-empty and the message start offset is
below 54; and then, with `L` the length of the sanitised message and
`maxChars = ((64 - offset) / 10) * 21`: if `L > maxChars` the text produced by the
truncation step has length `maxChars` and, when `maxChars > 3`, is the first `maxChars - 3`
characters followed by `"..."`; otherwise it is the sanitised message itself, of length
`min L maxChars`. -/
theorem displayNotification_truncation (charIsSigned : Bool) (title message : Text) :
    ∃ r, displayNotification charIsSigned title message = some r ∧
      (r.messageText.isSome ↔ (removeEmojis charIsSigned message ≠ [] ∧ r.messageStart < 54)) ∧
      ∀ txt, r.messageText = some txt →
        ((removeEmojis charIsSigned message).length > (64 - r.messageStart) / 10 * 21 →
          txt.length = (64 - r.messageStart) / 10 * 21 ∧
          ((64 - r.messageStart) / 10 * 21 > 3 →
            ellipsis <:+ txt ∧
            txt = (removeEmojis charIsSigned message).take ((64 - r.messageStart) / 10 * 21 - 3)
                    ++ ellipsis)) ∧
        (¬ (removeEmojis charIsSigned message).length > (64 - r.messageStart) / 10 * 21 →
          txt.length
            = min (removeEmojis charIsSigned message).length ((64 - r.messageStart) / 10 * 21) ∧
          txt = removeEmojis charIsSigned message) := by
  obtain ⟨titleRows, y, _, h | h⟩ := displayNotification_cases charIsSigned title message
  · obtain ⟨hm, hy, rows, y2, _, hd⟩ := h
    refine ⟨_, hd, by simp [hm, hy], ?_⟩
    dsimp only
    intro txt htxt
    simp only [Option.some.injEq] at htxt
    subst htxt
    have hs := truncateMessage_spec (y + 4) (removeEmojis charIsSigned message)
    refine ⟨fun hL => ⟨(hs.1 hL).1, fun h3 => ?_⟩, fun hL => ?_⟩
    · have e := (hs.1 hL).2 h3
      exact ⟨⟨_, e.symm⟩, e⟩
    · have e := hs.2 hL
      rw [e]
      exact ⟨by omega, rfl⟩
  · obtain ⟨hm, hd⟩ := h
    refine ⟨_, hd, by simpa using hm, ?_⟩
    intro txt htxt
    simp at htxt

set_option maxRecDepth 100000 in
/-- Witness for C7: a two-row title and a message of 100 printable characters give
`maxChars = 42` and a 42-character text ending in `"..."`. -/
theorem displayNotification_truncation_witness :
    ∃ r txt,
      displayNotification false (List.replicate 22 65) (List.replicate 100 66) = some r ∧
      r.messageText = some txt ∧ (64 - r.messageStart) / 10 * 21 = 42 ∧
      txt.length = 42 ∧ ellipsis <:+ txt := by
  obtain ⟨r, hr, _, hlaw⟩ :=
    displayNotification_truncation false (List.replicate 22 65) (List.replicate 100 66)
  have hstart : r.messageStart = 36 ∧
      r.messageText = some (List.replicate 39 66 ++ [46, 46, 46]) := by
    have hc : (displayNotification false (List.replicate 22 65) (List.replicate 100 66)).map
        (fun r => (r.messageStart, r.messageText))
          = some (36, some (List.replicate 39 66 ++ [46, 46, 46])) := by decide
    rw [hr] at hc
    simp only [Option.map_some', Option.some.injEq, Prod.mk.injEq] at hc
    exact hc
  have hL : (removeEmojis false (List.replicate 100 66)).length = 100 := by decide
  have h := (hlaw _ hstart.2).1
  rw [hstart.1, hL] at h
  have h2 := h (by decide)
  exact ⟨r, _, hr, hstart.2, by rw [hstart.1], h2.1, (h2.2 (by decide)).1⟩

/-- Claim C8.  Message placement in `displayNotification`.  When the sanitised title and
the sanitised message are both non-empty, the first title row is written at offset 12, and
with `last` the last title row written: if `last + 10 + 4 < 54` the first message row is
written at offset `last + 10 + 4`, and otherwise no message row is written. -/
theorem displayNotification_placement (charIsSigned : Bool) (title message : Text)
    (ht : removeEmojis charIsSigned title ≠ [])
    (hm : removeEmojis charIsSigned message ≠ []) :
    ∃ r, displayNotification charIsSigned title message = some r ∧
      (∃ line rest, r.titleRows = (12, line) :: rest) ∧
      ∃ last, r.titleRows.getLast? = some last ∧
        (last.1 + 10 + 4 < 54 → ∃ line rest, r.messageRows = (last.1 + 10 + 4, line) :: rest) ∧
        (¬ last.1 + 10 + 4 < 54 → r.messageRows = []) := by
  obtain ⟨titleRows, y, hty, h⟩ := displayNotification_cases charIsSigned title message
  rw [if_pos ht] at hty
  obtain ⟨⟨rest, hfirst⟩, last, hlast, hy⟩ :=
    printLines_rows _ _ _ _ _ _ hty (List.length_pos.2 ht)
  rcases h with h | h
  · obtain ⟨_, hy54, rows, y2, hrows, hd⟩ := h
    refine ⟨_, hd, ⟨_, rest, hfirst⟩, last, hlast, ?_, ?_⟩
    · intro _
      have hne := truncateMessage_ne_nil (y + 4) _ hm hy54
      obtain ⟨⟨rest2, hfirst2⟩, _⟩ :=
        printLines_rows _ _ _ _ _ _ hrows (List.length_pos.2 hne)
      dsimp only
      rw [hfirst2, hy]
      exact ⟨_, rest2, rfl⟩
    · intro hnot
      omega
  · obtain ⟨hno, hd⟩ := h
    refine ⟨_, hd, ⟨_, rest, hfirst⟩, last, hlast, ?_, fun _ => rfl⟩
    intro hlt
    exact absurd ⟨hm, by omega⟩ hno

/-- Witness for C8: title "Hello" and message "World" put the title on row 12 and the
message on row 26. -/
theorem displayNotification_placement_witness :
    ∃ r, displayNotification false [72, 101, 108, 108, 111] [87, 111, 114, 108, 100] = some r ∧
      r.titleRows = [(12, [72, 101, 108, 108, 111])] ∧
      r.messageRows = [(26, [87, 111, 114, 108, 100])] := by
  obtain ⟨r, hr, _, _⟩ :=
    displayNotification_placement false [72, 101, 108, 108, 111] [87, 111, 114, 108, 100] (by decide) (by decide)
  have hc : displayNotification false [72, 101, 108, 108, 111] [87, 111, 114, 108, 100]
      = some
          { titleRows := [(12, [72, 101, 108, 108, 111])], messageStart := 26
            messageText := some [87, 111, 114, 108, 100]
            messageRows := [(26, [87, 111, 114, 108, 100])] } := by decide
  rw [hc] at hr
  cases hr
  exact ⟨_, hc, rfl, rfl⟩

/-- Claim C10.  In `displayNotification`, whenever the message is laid out, the rows
written by the message loop, put end to end, are the whole text produced by the truncation
step: the row cutoff `yOffset >= 64` drops none of it, and the loop writes no more rows than
the text has chunks of 21 characters. -/
theorem displayNotification_rows_hold_message (charIsSigned : Bool) (title message : Text) :
    ∃ r, displayNotification charIsSigned title message = some r ∧
      (r.messageText.isSome ↔ (removeEmojis charIsSigned message ≠ [] ∧ r.messageStart < 54)) ∧
      ∀ txt, r.messageText = some txt →
        (r.messageRows.map Prod.snd).flatten = txt ∧
        r.messageRows.length * 21 < txt.length + 21 := by
  obtain ⟨titleRows, y, _, h | h⟩ := displayNotification_cases charIsSigned title message
  · obtain ⟨hm, hy, rows, y2, hrows, hd⟩ := h
    refine ⟨_, hd, by simp [hm, hy], ?_⟩
    dsimp only
    intro txt htxt
    simp only [Option.some.injEq] at htxt
    subst htxt
    have hle := truncateMessage_length_le (y + 4) (removeEmojis charIsSigned message)
    have hall :=
      printLines_complete _ _ 0 (y + 4) ((64 - (y + 4)) / 10) rows y2 hrows (by omega) (by omega)
    rw [List.drop_zero] at hall
    refine ⟨hall, ?_⟩
    have := printLines_count _ _ 0 (y + 4) rows y2 hrows
    omega
  · obtain ⟨hm, hd⟩ := h
    refine ⟨_, hd, by simpa using hm, ?_⟩
    intro txt htxt
    simp at htxt

set_option maxRecDepth 100000 in
/-- Witness for C10: title "Hello" and a message of 70 printable characters: the text is
cut to 63 characters and written on the rows 26, 36 and 46. -/
theorem displayNotification_rows_witness :
    ∃ r txt,
      displayNotification false [72, 101, 108, 108, 111] (List.replicate 70 66) = some r ∧
      r.messageText = some txt ∧ txt.length = 63 ∧
      (r.messageRows.map Prod.snd).flatten = txt ∧ r.messageRows.map Prod.fst = [26, 36, 46] := by
  obtain ⟨r, hr, _, hall⟩ :=
    displayNotification_rows_hold_message false [72, 101, 108, 108, 111] (List.replicate 70 66)
  have hc : (displayNotification false [72, 101, 108, 108, 111] (List.replicate 70 66)).map
      (fun r => (r.messageText, r.messageRows.map Prod.fst))
        = some (some (List.replicate 60 66 ++ [46, 46, 46]), [26, 36, 46]) := by decide
  rw [hr] at hc
  simp only [Option.map_some', Option.some.injEq, Prod.mk.injEq] at hc
  exact ⟨r, _, hr, hc.1, by decide, (hall _ hc.1).1, hc.2⟩

/-! ## Theorems: attribute stream parser -/

theorem readByte_append (pre suf : List Byte) (beyond : Nat → Byte) (k : Nat) :
    readByte (pre ++ suf) beyond (pre.length + k) = (suf[k]?).getD (beyond (k - suf.length)) := by
  unfold readByte
  rw [List.getElem?_append_right (by omega)]
  simp only [List.length_append, Nat.add_sub_cancel_left]
  congr 2
  omega

theorem cString_append_zero (v : List Byte) :
    cString (v ++ [0]) = v.takeWhile (fun b => b ≠ 0) := by
  unfold cString
  induction v with
  | nil => simp [List.takeWhile]
  | cons a as ih =>
    by_cases h : a = 0
    · simp [List.takeWhile, h]
    · simp only [List.cons_append, List.takeWhile_cons, ih]

theorem readU16_le16 (n : Nat) (h : n < 65536) :
    readU16 (toUint8 n) (toUint8 (n / 256)) = n := by
  simp only [readU16, toUint8_val]
  omega

/-- Every pass moves `index` forward by at least the three header bytes. -/
theorem attributeStep_next (pData : List Byte) (beyond : Nat → Byte) (index : Nat) (g : Globals) :
    index + 3 ≤ (attributeStep pData beyond index g).next := by
  unfold attributeStep
  dsimp only
  split <;> dsimp only <;> omega

/-- Past the end of the buffer the loop exits at once, whatever the fuel. -/
theorem attributeLoop_done (pData : List Byte) (beyond : Nat → Byte) (fuel index : Nat)
    (g : Globals) (h : pData.length ≤ index) :
    attributeLoop pData beyond fuel index g = some (g, []) := by
  have : ¬ index < pData.length := by omega
  cases fuel <;> simp [attributeLoop, this]

/-- Enough fuel: the record loop returns. -/
theorem attributeLoop_total (pData : List Byte) (beyond : Nat → Byte) :
    ∀ (fuel index : Nat) (g : Globals), pData.length ≤ index + fuel →
      ∃ res, attributeLoop pData beyond fuel index g = some res := by
  intro fuel
  induction fuel with
  | zero =>
    intro index g h
    exact ⟨_, attributeLoop_done _ _ _ _ _ (by omega)⟩
  | succ n ih =>
    intro index g h
    by_cases hi : index < pData.length
    · have hn := attributeStep_next pData beyond index g
      obtain ⟨res, hres⟩ := ih (attributeStep pData beyond index g).next
        (attributeStep pData beyond index g).globals (by omega)
      simp only [attributeLoop, hi, if_true, hres]
      exact ⟨_, rfl⟩
    · exact ⟨_, attributeLoop_done _ _ _ _ _ (by omega)⟩

/-- The result does not depend on the fuel, once there is enough of it. -/
theorem attributeLoop_fuel (pData : List Byte) (beyond : Nat → Byte) :
    ∀ (f1 f2 index : Nat) (g : Globals), pData.length ≤ index + f1 → pData.length ≤ index + f2 →
      attributeLoop pData beyond f1 index g = attributeLoop pData beyond f2 index g := by
  intro f1
  induction f1 with
  | zero =>
    intro f2 index g h1 _
    rw [attributeLoop_done _ _ _ _ _ (by omega), attributeLoop_done _ _ _ _ _ (by omega)]
  | succ n ih =>
    intro f2 index g h1 h2
    by_cases hi : index < pData.length
    · cases f2 with
      | zero => omega
      | succ m =>
        have hn := attributeStep_next pData beyond index g
        simp only [attributeLoop, hi, if_true]
        rw [ih m _ _ (by omega) (by omega)]
    · rw [attributeLoop_done _ _ _ _ _ (by omega), attributeLoop_done _ _ _ _ _ (by omega)]

/-- The pass over one complete record. -/
theorem attributeStep_record (pre rest : List Byte) (beyond : Nat → Byte) (r : Byte × Text)
    (g : Globals) (hr : r.2.length < 65536) :
    attributeStep (pre ++ (encodeRecord r ++ rest)) beyond pre.length g =
      { globals := applyRecord r g
        reads := List.range' pre.length (encodeRecord r).length
        next := pre.length + (encodeRecord r).length } := by
  obtain ⟨id, v⟩ := r
  have h0 : readByte (pre ++ (encodeRecord (id, v) ++ rest)) beyond pre.length = id := by
    have := readByte_append pre (encodeRecord (id, v) ++ rest) beyond 0
    simpa [encodeRecord] using this
  have h1 : readByte (pre ++ (encodeRecord (id, v) ++ rest)) beyond (pre.length + 1)
      = toUint8 v.length := by
    have := readByte_append pre (encodeRecord (id, v) ++ rest) beyond 1
    simpa [encodeRecord, le16] using this
  have h2 : readByte (pre ++ (encodeRecord (id, v) ++ rest)) beyond (pre.length + 2)
      = toUint8 (v.length / 256) := by
    have := readByte_append pre (encodeRecord (id, v) ++ rest) beyond 2
    simpa [encodeRecord, le16] using this
  have hlen : (encodeRecord (id, v)).length = 3 + v.length := by
    simp [encodeRecord, le16]; omega
  have hdrop : ((pre ++ (encodeRecord (id, v) ++ rest)).drop (pre.length + 3)).take v.length
      = v := by
    have e : pre ++ (encodeRecord (id, v) ++ rest)
        = (pre ++ [id, toUint8 v.length, toUint8 (v.length / 256)]) ++ (v ++ rest) := by
      simp [encodeRecord, le16]
    rw [e, List.drop_left' (by simp), List.take_left']
    rfl
  unfold attributeStep
  simp only [h0, h1, h2, readU16_le16 _ hr, hdrop, cString_append_zero, hlen]
  by_cases hv : v = []
  · subst hv
    simp [applyRecord, List.range']
  · have hpos : 0 < v.length := List.length_pos.2 hv
    have hfit : v.length > 0 ∧
        pre.length + 3 + v.length ≤ (pre ++ (encodeRecord (id, v) ++ rest)).length := by
      refine ⟨hpos, ?_⟩
      simp only [List.length_append, hlen]
      omega
    rw [if_pos hfit]
    simp only [applyRecord, hv, if_false]
    have hr' : [pre.length, pre.length + 1, pre.length + 2] ++ List.range' (pre.length + 3) v.length
        = List.range' pre.length (3 + v.length) := by
      have := List.range'_append_1 pre.length 3 v.length
      rw [Nat.add_comm v.length 3] at this
      rw [← this]
      rfl
    rw [hr']
    congr 1
    omega

theorem encodeRecord_length (r : Byte × Text) : (encodeRecord r).length = 3 + r.2.length := by
  simp [encodeRecord, le16]; omega

theorem encodeRecords_cons (r : Byte × Text) (rs : List (Byte × Text)) :
    encodeRecords (r :: rs) = encodeRecord r ++ encodeRecords rs := by
  simp [encodeRecords]

/-- One turn of the loop, with the match written as a map. -/
theorem attributeLoop_succ (pData : List Byte) (beyond : Nat → Byte) (fuel index : Nat)
    (g : Globals) (h : index < pData.length) :
    attributeLoop pData beyond (fuel + 1) index g =
      (attributeLoop pData beyond fuel (attributeStep pData beyond index g).next
          (attributeStep pData beyond index g).globals).map
        (fun x => (x.1, (attributeStep pData beyond index g).reads ++ x.2)) := by
  simp only [attributeLoop, h, if_true]
  cases attributeLoop pData beyond fuel (attributeStep pData beyond index g).next
      (attributeStep pData beyond index g).globals with
  | none => rfl
  | some x => rfl

/-- The loop over a run of complete records: it reads exactly their bytes, applies each
record in turn and arrives at the first byte after them. -/
theorem attributeLoop_records (beyond : Nat → Byte) (rest p : List Byte) :
    ∀ (rs : List (Byte × Text)) (pre : List Byte) (g : Globals) (fuel : Nat),
      p = pre ++ (encodeRecords rs ++ rest) → (∀ r ∈ rs, r.2.length < 65536) →
      p.length ≤ pre.length + fuel →
      attributeLoop p beyond fuel pre.length g =
        (attributeLoop p beyond fuel (pre.length + (encodeRecords rs).length)
            (applyRecords rs g)).map
          (fun x => (x.1, List.range' pre.length (encodeRecords rs).length ++ x.2)) := by
  intro rs
  induction rs with
  | nil =>
    intro pre g fuel _ _ _
    simp [encodeRecords, applyRecords]
  | cons r rs ih =>
    intro pre g fuel hp hv hf
    have hr := hv r (List.mem_cons_self _ _)
    have henc := encodeRecords_cons r rs
    have hp1 : p = pre ++ (encodeRecord r ++ (encodeRecords rs ++ rest)) := by
      rw [hp, henc, List.append_assoc]
    have hp2 : p = (pre ++ encodeRecord r) ++ (encodeRecords rs ++ rest) := by
      rw [hp1, List.append_assoc]
    have hstep := attributeStep_record pre (encodeRecords rs ++ rest) beyond r g hr
    rw [← hp1] at hstep
    have hlen3 := encodeRecord_length r
    have hplen : p.length
        = pre.length + (encodeRecord r).length + (encodeRecords rs ++ rest).length := by
      rw [hp2]; simp only [List.length_append]
    cases fuel with
    | zero => omega
    | succ n =>
      have hi : pre.length < p.length := by omega
      rw [attributeLoop_succ p beyond n pre.length g hi, hstep]
      dsimp only
      rw [attributeLoop_fuel p beyond n (n + 1) _ _ (by omega) (by omega)]
      have hih := ih (pre ++ encodeRecord r) (applyRecord r g) (n + 1) hp2
        (fun x hx => hv x (List.mem_cons_of_mem _ hx))
        (by simp only [List.length_append]; omega)
      rw [List.length_append] at hih
      rw [hih]
      have hidx : pre.length + (encodeRecords (r :: rs)).length
          = pre.length + (encodeRecord r).length + (encodeRecords rs).length := by
        rw [henc, List.length_append]; omega
      have hrange : List.range' pre.length (encodeRecord r).length
            ++ List.range' (pre.length + (encodeRecord r).length) (encodeRecords rs).length
          = List.range' pre.length (encodeRecords (r :: rs)).length := by
        rw [henc, List.length_append, List.range'_append_1]
        congr 1
        omega
      have happ : applyRecords (r :: rs) g = applyRecords rs (applyRecord r g) := rfl
      rw [hidx, happ]
      cases attributeLoop p beyond (n + 1)
          (pre.length + (encodeRecord r).length + (encodeRecords rs).length)
          (applyRecords rs (applyRecord r g)) with
      | none => rfl
      | some x =>
        simp only [Option.map_some', ← hrange, List.append_assoc]

/-- The pass over a record whose declared length runs past the end of the buffer: the
three header bytes are read, nothing is stored and `index` leaves the buffer. -/
theorem attributeStep_truncated (pre tv : List Byte) (beyond : Nat → Byte) (tid l0 l1 : Byte)
    (g : Globals) (h : tv.length < readU16 l0 l1) :
    attributeStep (pre ++ tid :: l0 :: l1 :: tv) beyond pre.length g =
      { globals := g
        reads := [pre.length, pre.length + 1, pre.length + 2]
        next := pre.length + 3 + readU16 l0 l1 } := by
  have h1 : readByte (pre ++ tid :: l0 :: l1 :: tv) beyond (pre.length + 1) = l0 := by
    have := readByte_append pre (tid :: l0 :: l1 :: tv) beyond 1
    simpa using this
  have h2 : readByte (pre ++ tid :: l0 :: l1 :: tv) beyond (pre.length + 2) = l1 := by
    have := readByte_append pre (tid :: l0 :: l1 :: tv) beyond 2
    simpa using this
  unfold attributeStep
  simp only [h1, h2]
  have hno : ¬ (readU16 l0 l1 > 0 ∧
      pre.length + 3 + readU16 l0 l1 ≤ (pre ++ tid :: l0 :: l1 :: tv).length) := by
    simp only [List.length_append, List.length_cons]
    omega
  rw [if_neg hno]

/-- The callback in terms of the result of its record loop. -/
theorem dataSourceNotifyCallback_of_loop (charIsSigned : Bool) (beyond : Nat → Byte)
    (g g1 : Globals) (pData : List Byte) (rs : List Nat)
    (h : attributeLoop pData beyond pData.length 5 g = some (g1, rs)) :
    ∃ r, dataSourceNotifyCallback charIsSigned beyond g pData = some r ∧
      r.globals = g1 ∧ r.reads = [1, 2, 3, 4] ++ rs ∧
      r.receivedUID = readU32 (readByte pData beyond 1) (readByte pData beyond 2)
        (readByte pData beyond 3) (readByte pData beyond 4) ∧
      (r.screen =
        if g1.notificationTitle ≠ [] ∨ g1.notificationMessage ≠ [] then
          displayNotification charIsSigned g1.notificationTitle g1.notificationMessage
        else none) := by
  unfold dataSourceNotifyCallback
  simp only [h]
  by_cases hd : g1.notificationTitle ≠ [] ∨ g1.notificationMessage ≠ []
  · obtain ⟨r, hr⟩ := displayNotification_total charIsSigned g1.notificationTitle g1.notificationMessage
    rw [if_pos hd, if_pos hd]
    simp only [hr]
    exact ⟨_, rfl, rfl, rfl, rfl, rfl⟩
  · rw [if_neg hd, if_neg hd]
    exact ⟨_, rfl, rfl, rfl, rfl, rfl⟩

/-- The loop standing at a record whose declared length runs past the end of the buffer
reads its header, stores nothing and ends. -/
theorem attributeLoop_truncated (pre tv : List Byte) (beyond : Nat → Byte) (tid l0 l1 : Byte)
    (g : Globals) (fuel : Nat) (h : tv.length < readU16 l0 l1) :
    attributeLoop (pre ++ tid :: l0 :: l1 :: tv) beyond (fuel + 1) pre.length g =
      some (g, [pre.length, pre.length + 1, pre.length + 2]) := by
  have hi : pre.length < (pre ++ tid :: l0 :: l1 :: tv).length := by
    simp only [List.length_append, List.length_cons]; omega
  rw [attributeLoop_succ _ _ _ _ _ hi, attributeStep_truncated pre tv beyond tid l0 l1 g h]
  dsimp only
  rw [attributeLoop_done _ _ _ _ _
    (by simp only [List.length_append, List.length_cons]; omega)]
  rfl

/-- The callback always returns. -/
theorem dataSourceNotifyCallback_total (charIsSigned : Bool) (beyond : Nat → Byte) (g : Globals)
    (pData : List Byte) : ∃ r, dataSourceNotifyCallback charIsSigned beyond g pData = some r := by
  obtain ⟨⟨g1, rs⟩, h⟩ := attributeLoop_total pData beyond pData.length 5 g (by omega)
  obtain ⟨r, hr, _⟩ := dataSourceNotifyCallback_of_loop charIsSigned beyond g g1 pData rs h
  exact ⟨r, hr⟩

/-- Claim C3.  For a 5-byte header, a run `R` of complete records and a tail of at least
three bytes `tid, l0, l1, ...` whose declared length `l0 + 256*l1` exceeds the bytes that
follow, `dataSourceNotifyCallback` on `header ++ R ++ tail` leaves the same globals (title
and message) and the same rendering as on `header ++ R` alone: the records of `R` are
applied, the tail contributes nothing, and every index read lies inside the buffer. -/
theorem dataSource_truncated_record (charIsSigned : Bool) (b1 b2 : Nat → Byte) (g : Globals) (header : List Byte)
    (recs : List (Byte × Text)) (tid l0 l1 : Byte) (tv : List Byte)
    (hh : header.length = 5) (hv : ∀ r ∈ recs, r.2.length < 65536)
    (ht : tv.length < readU16 l0 l1) :
    ∃ r1 r2,
      dataSourceNotifyCallback charIsSigned b1 g
        (header ++ encodeRecords recs ++ tid :: l0 :: l1 :: tv) = some r1 ∧
      dataSourceNotifyCallback charIsSigned b2 g (header ++ encodeRecords recs) = some r2 ∧
      r1.globals = r2.globals ∧ r1.screen = r2.screen ∧
      r1.globals = applyRecords recs g ∧
      (∀ i ∈ r1.reads, i < (header ++ encodeRecords recs ++ tid :: l0 :: l1 :: tv).length) := by
  -- the run on the truncated payload
  have e1 : header ++ encodeRecords recs ++ tid :: l0 :: l1 :: tv
      = header ++ (encodeRecords recs ++ tid :: l0 :: l1 :: tv) := List.append_assoc _ _ _
  have hlen1 : (header ++ encodeRecords recs ++ tid :: l0 :: l1 :: tv).length
      = 5 + (encodeRecords recs).length + tv.length + 3 := by
    simp only [List.length_append, List.length_cons, hh]; omega
  have hrun1 := attributeLoop_records b1 (tid :: l0 :: l1 :: tv) _ recs header g
    (header ++ encodeRecords recs ++ tid :: l0 :: l1 :: tv).length e1 hv (by omega)
  have htr := attributeLoop_truncated (header ++ encodeRecords recs) tv b1 tid l0 l1
    (applyRecords recs g) (5 + (encodeRecords recs).length + tv.length + 2) ht
  rw [List.length_append, hh] at htr
  rw [hh, hlen1, htr] at hrun1
  rw [← hlen1] at hrun1
  obtain ⟨r1, hr1, hg1, hreads1, _, hs1⟩ :=
    dataSourceNotifyCallback_of_loop charIsSigned b1 g _ _ _ hrun1
  -- the run on the payload without the tail
  have e2 : header ++ encodeRecords recs = header ++ (encodeRecords recs ++ []) := by simp
  have hlen2 : (header ++ encodeRecords recs).length = 5 + (encodeRecords recs).length := by
    simp only [List.length_append, hh]
  have hrun2 := attributeLoop_records b2 [] _ recs header g
    (header ++ encodeRecords recs).length e2 hv (by omega)
  rw [hh, attributeLoop_done (header ++ encodeRecords recs) b2 _
    (5 + (encodeRecords recs).length) (applyRecords recs g) (by omega)] at hrun2
  obtain ⟨r2, hr2, hg2, _, _, hs2⟩ :=
    dataSourceNotifyCallback_of_loop charIsSigned b2 g _ _ _ hrun2
  refine ⟨r1, r2, hr1, hr2, ?_, ?_, ?_, ?_⟩
  · rw [hg1, hg2]
  · rw [hs1, hs2]
  · rw [hg1]
  · intro i hi
    rw [hreads1] at hi
    simp only [List.mem_append, List.mem_cons, List.mem_range'_1, List.mem_singleton,
      List.not_mem_nil, or_false] at hi
    rw [hlen1]
    omega

theorem takeWhile_ne_zero_of_all (t : Text) (h : ∀ b ∈ t, b ≠ 0) :
    t.takeWhile (fun b => b ≠ 0) = t := by
  rw [List.takeWhile_eq_self_iff]
  intro b hb
  simpa using h b hb

/-- Claim C1, amended.  For every uid and all byte strings `t` and `m` of at most 65535
bytes, parsing `[cmd] ++ LE32(uid) ++ [1] ++ LE16(len t) ++ t ++ [3] ++ LE16(len m) ++ m`
reads the uid back and sets the title to the bytes of `t` before its first zero byte when
`t` is non-empty, and leaves the title as it was when `t` is empty; likewise the message
and `m`.  So `title == t` and `message == m` for non-empty `t` and `m` without a zero
byte.  Every index read lies inside the buffer. -/
theorem dataSource_roundtrip (charIsSigned : Bool) (beyond : Nat → Byte) (g : Globals) (cmd : Byte) (uid : Nat)
    (t m : Text) (hu : uid < 2 ^ 32) (ht : t.length ≤ 65535) (hm : m.length ≤ 65535) :
    ∃ r,
      dataSourceNotifyCallback charIsSigned beyond g
        ([cmd] ++ le32 uid ++ [1] ++ le16 t.length ++ t ++ [3] ++ le16 m.length ++ m) = some r ∧
      r.receivedUID = uid ∧
      r.globals.notificationTitle
        = (if t = [] then g.notificationTitle else t.takeWhile (fun b => b ≠ 0)) ∧
      r.globals.notificationMessage
        = (if m = [] then g.notificationMessage else m.takeWhile (fun b => b ≠ 0)) ∧
      (t ≠ [] → (∀ b ∈ t, b ≠ 0) → r.globals.notificationTitle = t) ∧
      (m ≠ [] → (∀ b ∈ m, b ≠ 0) → r.globals.notificationMessage = m) ∧
      (∀ i ∈ r.reads,
        i < ([cmd] ++ le32 uid ++ [1] ++ le16 t.length ++ t ++ [3] ++ le16 m.length ++ m).length) := by
  have e : [cmd] ++ le32 uid ++ [1] ++ le16 t.length ++ t ++ [3] ++ le16 m.length ++ m
      = (cmd :: le32 uid) ++ (encodeRecords [(1, t), (3, m)] ++ []) := by
    simp [encodeRecords, encodeRecord]
  have hpre : (cmd :: le32 uid).length = 5 := rfl
  have hlen : ([cmd] ++ le32 uid ++ [1] ++ le16 t.length ++ t ++ [3] ++ le16 m.length ++ m).length
      = 5 + (encodeRecords [(1, t), (3, m)]).length := by
    rw [e]; simp only [List.length_append, hpre, List.length_nil]; omega
  have hv : ∀ r ∈ [((1 : Byte), t), ((3 : Byte), m)], r.2.length < 65536 := by
    intro r hr
    simp only [List.mem_cons, List.mem_singleton, List.not_mem_nil, or_false] at hr
    rcases hr with hr | hr <;> subst hr <;> dsimp only <;> omega
  have hrun := attributeLoop_records beyond [] _ [(1, t), (3, m)] (cmd :: le32 uid) g
    ([cmd] ++ le32 uid ++ [1] ++ le16 t.length ++ t ++ [3] ++ le16 m.length ++ m).length
    e hv (by omega)
  rw [hpre, attributeLoop_done _ beyond _ (5 + (encodeRecords [(1, t), (3, m)]).length)
    (applyRecords [(1, t), (3, m)] g) (by omega)] at hrun
  obtain ⟨r, hr, hg, hreads, huid, _⟩ :=
    dataSourceNotifyCallback_of_loop charIsSigned beyond g _ _ _ hrun
  have htitle : r.globals.notificationTitle
      = (if t = [] then g.notificationTitle else t.takeWhile (fun b => b ≠ 0)) := by
    rw [hg]
    by_cases h1 : t = [] <;> by_cases h2 : m = [] <;>
      simp [applyRecords, applyRecord, h1, h2]
  have hmessage : r.globals.notificationMessage
      = (if m = [] then g.notificationMessage else m.takeWhile (fun b => b ≠ 0)) := by
    rw [hg]
    by_cases h1 : t = [] <;> by_cases h2 : m = [] <;>
      simp [applyRecords, applyRecord, h1, h2]
  refine ⟨r, hr, ?_, htitle, hmessage, ?_, ?_, ?_⟩
  · rw [huid, e]
    have : readU32 (readByte (cmd :: le32 uid ++ (encodeRecords [(1, t), (3, m)] ++ [])) beyond 1)
        (readByte (cmd :: le32 uid ++ (encodeRecords [(1, t), (3, m)] ++ [])) beyond 2)
        (readByte (cmd :: le32 uid ++ (encodeRecords [(1, t), (3, m)] ++ [])) beyond 3)
        (readByte (cmd :: le32 uid ++ (encodeRecords [(1, t), (3, m)] ++ [])) beyond 4)
        = readU32 (toUint8 uid) (toUint8 (uid / 256)) (toUint8 (uid / 65536))
            (toUint8 (uid / 16777216)) := by
      simp [readByte, le32]
    rw [this]
    exact readU32_le32 uid hu
  · intro hne hall
    rw [htitle, if_neg hne, takeWhile_ne_zero_of_all t hall]
  · intro hne hall
    rw [hmessage, if_neg hne, takeWhile_ne_zero_of_all m hall]
  · intro i hi
    rw [hreads] at hi
    simp only [List.mem_append, List.mem_cons, List.mem_range'_1, List.mem_singleton,
      List.not_mem_nil, or_false, List.append_nil] at hi
    rw [hlen]
    omega

set_option maxRecDepth 10000 in
/-- Witness for C1: the records (1, "Hello") and (3, "World") give title "Hello" and
message "World". -/
theorem dataSource_roundtrip_witness :
    ∃ r,
      dataSourceNotifyCallback false (fun _ => 0) initialGlobals
        [0x00, 0x2A, 0, 0, 0, 0x01, 0x05, 0x00, 72, 101, 108, 108, 111,
          0x03, 0x05, 0x00, 87, 111, 114, 108, 100] = some r ∧
      r.globals.notificationTitle = [72, 101, 108, 108, 111] ∧
      r.globals.notificationMessage = [87, 111, 114, 108, 100] := by
  obtain ⟨r, hr, _, _, _, ht, hm, _⟩ :=
    dataSource_roundtrip false (fun _ => 0) initialGlobals 0 42 [72, 101, 108, 108, 111]
      [87, 111, 114, 108, 100] (by decide) (by decide) (by decide)
  exact ⟨r, hr, ht (by decide) (by decide), hm (by decide) (by decide)⟩

/-- Counterexample to C1 as stated: the title value `[65, 0, 66]` comes out as `[65]`,
cut at its zero byte. -/
theorem dataSource_value_cut_at_zero_byte :
    (dataSourceNotifyCallback false (fun _ => 0) initialGlobals
        ([0] ++ le32 42 ++ [1] ++ le16 3 ++ [65, 0, 66] ++ [3] ++ le16 5
          ++ [87, 111, 114, 108, 100])).map
      (fun r => r.globals.notificationTitle) = some [65] ∧
    ([65] : Text) ≠ [65, 0, 66] := by
  decide

/-- Claim C2, evaluated at a payload of 4 bytes: the callback returns and leaves the
globals as they were, but line 169 has read the indices 1, 2, 3 and 4, and index 4 is not
below the length 4. -/
theorem dataSource_short_payload_reads_past_end (charIsSigned : Bool) (beyond : Nat → Byte) (g : Globals) :
    ∃ r, dataSourceNotifyCallback charIsSigned beyond g [0, 42, 0, 0] = some r ∧
      r.reads = [1, 2, 3, 4] ∧ (∃ i ∈ r.reads, ([0, 42, 0, 0] : List Byte).length ≤ i) ∧
      r.globals = g := by
  have hrun := attributeLoop_done [0, 42, 0, 0] beyond ([0, 42, 0, 0] : List Byte).length 5 g
    (by decide)
  obtain ⟨r, hr, hg, hreads, _, _⟩ :=
    dataSourceNotifyCallback_of_loop charIsSigned beyond g _ _ _ hrun
  refine ⟨r, hr, by simpa using hreads, ⟨4, ?_, by decide⟩, hg⟩
  rw [hreads]
  decide

/-- Witness for C3: a complete title record "Hello" followed by a message record that
declares 5 bytes and holds 2. -/
theorem dataSource_truncated_record_witness :
    ∃ r1 r2,
      dataSourceNotifyCallback false (fun _ => 0) initialGlobals
        [0x00, 0x2A, 0, 0, 0, 0x01, 0x05, 0x00, 72, 101, 108, 108, 111,
          0x03, 0x05, 0x00, 87, 111] = some r1 ∧
      dataSourceNotifyCallback false (fun _ => 0) initialGlobals
        [0x00, 0x2A, 0, 0, 0, 0x01, 0x05, 0x00, 72, 101, 108, 108, 111] = some r2 ∧
      r1.globals = r2.globals ∧ r1.screen = r2.screen ∧
      r1.globals.notificationTitle = [72, 101, 108, 108, 111] ∧
      r1.globals.notificationMessage = [] := by
  obtain ⟨r1, r2, h1, h2, hg, hs, happ, _⟩ :=
    dataSource_truncated_record false (fun _ => 0) (fun _ => 0) initialGlobals [0x00, 0x2A, 0, 0, 0]
      [(1, [72, 101, 108, 108, 111])] 3 5 0 [87, 111] rfl (by decide) (by decide)
  refine ⟨r1, r2, h1, h2, hg, hs, ?_, ?_⟩
  · rw [happ]; decide
  · rw [happ]; decide

/-- A pass whose header runs past the end of the buffer stores nothing and leaves the
buffer, whatever it reads behind the buffer. -/
theorem attributeStep_cutHeader (pData : List Byte) (beyond : Nat → Byte) (index : Nat)
    (g : Globals) (h : pData.length ≤ index + 2) :
    (attributeStep pData beyond index g).globals = g ∧
    pData.length ≤ (attributeStep pData beyond index g).next := by
  have hn := attributeStep_next pData beyond index g
  refine ⟨?_, by omega⟩
  unfold attributeStep
  dsimp only
  rw [if_neg (by omega)]

theorem le16_readU16 (l0 l1 : Byte) : le16 (readU16 l0 l1) = [l0, l1] := by
  have h0 := l0.isLt
  have h1 := l1.isLt
  simp only [le16, readU16, List.cons.injEq, and_true]
  constructor <;> apply Fin.ext <;> simp only [toUint8_val] <;> omega

theorem readU16_lt (l0 l1 : Byte) : readU16 l0 l1 < 65536 := by
  have h0 := l0.isLt
  have h1 := l1.isLt
  simp only [readU16]
  omega

/-- The walk splits the bytes into the encoding of the complete records and a rest that
is shorter than a header or starts a record running past the end. -/
theorem splitRecords_spec :
    ∀ (fuel : Nat) (bytes : List Byte), bytes.length ≤ fuel →
      bytes = encodeRecords (splitRecords fuel bytes).1 ++ (splitRecords fuel bytes).2 ∧
      (∀ r ∈ (splitRecords fuel bytes).1, r.2.length < 65536) ∧
      ((splitRecords fuel bytes).2.length < 3 ∨
        ∃ tid l0 l1 tv, (splitRecords fuel bytes).2 = tid :: l0 :: l1 :: tv ∧
          tv.length < readU16 l0 l1) := by
  intro fuel
  induction fuel with
  | zero =>
    intro bytes h
    have : bytes = [] := List.length_eq_zero.1 (by omega)
    subst this
    simp [splitRecords, encodeRecords]
  | succ n ih =>
    intro bytes h
    match bytes, h with
    | [], _ => simp [splitRecords, encodeRecords]
    | [a], _ => simp [splitRecords, encodeRecords]
    | [a, b], _ => simp [splitRecords, encodeRecords]
    | id :: l0 :: l1 :: rest, h =>
      by_cases hfit : readU16 l0 l1 ≤ rest.length
      · simp only [splitRecords, hfit, if_true]
        have hlen : (rest.drop (readU16 l0 l1)).length ≤ n := by
          simp only [List.length_drop, List.length_cons] at h ⊢
          omega
        obtain ⟨h1, h2, h3⟩ := ih (rest.drop (readU16 l0 l1)) hlen
        refine ⟨?_, ?_, h3⟩
        · rw [encodeRecords_cons, List.append_assoc, ← h1]
          simp only [encodeRecord, List.length_take, Nat.min_eq_left hfit, le16_readU16,
            List.cons_append, List.nil_append, List.take_append_drop]
        · intro r hr
          rcases List.mem_cons.1 hr with hr | hr
          · subst hr
            simp only [List.length_take, Nat.min_eq_left hfit]
            exact readU16_lt l0 l1
          · exact h2 r hr
      · simp only [splitRecords, hfit, if_false]
        refine ⟨by simp [encodeRecords], by simp, Or.inr ⟨id, l0, l1, rest, rfl, by omega⟩⟩

/-- Standing at a rest shorter than a header, the loop stores nothing and ends. -/
theorem attributeLoop_cutHeader (pData : List Byte) (beyond : Nat → Byte) (fuel index : Nat)
    (g : Globals) (h : pData.length ≤ index + 2) (hf : pData.length ≤ index + fuel) :
    ∃ rs, attributeLoop pData beyond fuel index g = some (g, rs) := by
  by_cases hi : index < pData.length
  · cases fuel with
    | zero => omega
    | succ n =>
      obtain ⟨hg, hn⟩ := attributeStep_cutHeader pData beyond index g h
      rw [attributeLoop_succ _ _ _ _ _ hi, attributeLoop_done _ _ _ _ _ hn, hg]
      exact ⟨_, rfl⟩
  · exact ⟨[], attributeLoop_done _ _ _ _ _ (by omega)⟩

/-- For every payload the record loop returns, and the globals it leaves are those of the
complete records of the payload applied in order. -/
theorem attributeLoop_complete (p : List Byte) (beyond : Nat → Byte) (g : Globals) :
    ∃ rs, attributeLoop p beyond p.length 5 g
      = some (applyRecords (completeRecords p) g, rs) := by
  by_cases hp : p.length < 5
  · have hd : p.drop 5 = [] := List.drop_eq_nil_of_le (by omega)
    have hc : completeRecords p = [] := by
      simp [completeRecords, hd, splitRecords]
    rw [hc, attributeLoop_done _ _ _ _ _ (by omega)]
    exact ⟨[], rfl⟩
  · obtain ⟨hsplit, hvalid, htail⟩ := splitRecords_spec (p.drop 5).length (p.drop 5) (le_refl _)
    have hhead : (p.take 5).length = 5 := by
      rw [List.length_take]; omega
    have e : p = p.take 5 ++ (encodeRecords (completeRecords p)
        ++ (splitRecords (p.drop 5).length (p.drop 5)).2) := by
      unfold completeRecords
      rw [← hsplit, List.take_append_drop]
    have hplen : p.length = 5 + (encodeRecords (completeRecords p)).length
        + (splitRecords (p.drop 5).length (p.drop 5)).2.length := by
      conv_lhs => rw [e]
      simp only [List.length_append, hhead]
      omega
    have hrun := attributeLoop_records beyond
      (splitRecords (p.drop 5).length (p.drop 5)).2 p (completeRecords p) (p.take 5) g
      p.length e hvalid (by omega)
    rw [hhead] at hrun
    have hend : ∃ rs, attributeLoop p beyond p.length
        (5 + (encodeRecords (completeRecords p)).length) (applyRecords (completeRecords p) g)
          = some (applyRecords (completeRecords p) g, rs) := by
      rcases htail with hshort | ⟨tid, l0, l1, tv, htl, htr⟩
      · exact attributeLoop_cutHeader p beyond _ _ _ (by omega) (by omega)
      · have e2 : p = (p.take 5 ++ encodeRecords (completeRecords p)) ++ tid :: l0 :: l1 :: tv := by
          rw [List.append_assoc, ← htl]
          exact e
        have hpre : (p.take 5 ++ encodeRecords (completeRecords p)).length
            = 5 + (encodeRecords (completeRecords p)).length := by
          rw [List.length_append, hhead]
        have htrunc := attributeLoop_truncated (p.take 5 ++ encodeRecords (completeRecords p))
          tv beyond tid l0 l1 (applyRecords (completeRecords p) g) (p.length - 1) htr
        rw [← e2, hpre] at htrunc
        have hpos : p.length - 1 + 1 = p.length := by omega
        rw [hpos] at htrunc
        exact ⟨_, htrunc⟩
    obtain ⟨rs, hrs⟩ := hend
    rw [hrs] at hrun
    exact ⟨_, hrun⟩

theorem applyRecords_title (rs : List (Byte × Text)) :
    ∀ g : Globals, (applyRecords rs g).notificationTitle
      = (lastStored 1 rs).getD g.notificationTitle := by
  induction rs with
  | nil => intro g; rfl
  | cons r rs ih =>
    intro g
    have happ : applyRecords (r :: rs) g = applyRecords rs (applyRecord r g) := rfl
    rw [happ, ih]
    cases hl : lastStored 1 rs with
    | some s => simp [lastStored, hl]
    | none =>
      simp only [lastStored, hl, Option.getD_none]
      by_cases h2 : r.2 = []
      · simp [applyRecord, h2]
      · by_cases h1 : r.1 = 1
        · simp [applyRecord, h1, h2]
        · by_cases h3 : r.1 = 3
          · simp [applyRecord, h1, h2, h3]
          · simp [applyRecord, h1, h2, h3]

theorem applyRecords_message (rs : List (Byte × Text)) :
    ∀ g : Globals, (applyRecords rs g).notificationMessage
      = (lastStored 3 rs).getD g.notificationMessage := by
  induction rs with
  | nil => intro g; rfl
  | cons r rs ih =>
    intro g
    have happ : applyRecords (r :: rs) g = applyRecords rs (applyRecord r g) := rfl
    rw [happ, ih]
    cases hl : lastStored 3 rs with
    | some s => simp [lastStored, hl]
    | none =>
      simp only [lastStored, hl, Option.getD_none]
      by_cases h2 : r.2 = []
      · simp [applyRecord, h2]
      · by_cases h1 : r.1 = 1
        · have h3 : ¬ r.1 = 3 := by rw [h1]; decide
          simp [applyRecord, h1, h2, h3]
        · by_cases h3 : r.1 = 3
          · simp [applyRecord, h1, h2, h3]
          · simp [applyRecord, h1, h2, h3]

theorem lastStored_eq_none (id : Byte) (rs : List (Byte × Text)) :
    lastStored id rs = none ↔ ∀ r ∈ rs, r.1 = id → r.2 = [] := by
  induction rs with
  | nil => simp [lastStored]
  | cons r rs ih =>
    cases hl : lastStored id rs with
    | some s =>
      simp only [lastStored, hl, List.mem_cons, forall_eq_or_imp]
      constructor
      · intro h; cases h
      · intro h
        have := ih.2 h.2
        rw [hl] at this
        cases this
    | none =>
      have hrest := ih.1 hl
      simp only [lastStored, hl, List.mem_cons, forall_eq_or_imp]
      by_cases hc : r.1 = id ∧ r.2 ≠ []
      · rw [if_pos hc]
        constructor
        · intro h; cases h
        · intro h; exact absurd (h.1 hc.1) hc.2
      · rw [if_neg hc]
        refine ⟨fun _ => ⟨fun h1 => ?_, hrest⟩, fun _ => rfl⟩
        by_contra h2
        exact hc ⟨h1, h2⟩

theorem lastStored_eq_some (id : Byte) (rs : List (Byte × Text)) (s : Text) :
    lastStored id rs = some s →
      ∃ r ∈ rs, r.1 = id ∧ r.2 ≠ [] ∧ s = r.2.takeWhile (fun b => b ≠ 0) := by
  induction rs with
  | nil => intro h; simp [lastStored] at h
  | cons r rs ih =>
    intro h
    cases hl : lastStored id rs with
    | some s2 =>
      simp only [lastStored, hl, Option.some.injEq] at h
      subst h
      obtain ⟨x, hx, hrest⟩ := ih hl
      exact ⟨x, List.mem_cons_of_mem _ hx, hrest⟩
    | none =>
      simp only [lastStored, hl] at h
      by_cases hc : r.1 = id ∧ r.2 ≠ []
      · rw [if_pos hc] at h
        simp only [Option.some.injEq] at h
        exact ⟨r, List.mem_cons_self _ _, hc.1, hc.2, h.symm⟩
      · rw [if_neg hc] at h
        cases h

/-- Claim C4, amended.  For every payload `p` and any two states `g1`, `g2` of the globals
left by earlier responses (and any memory contents behind the buffer), processing `p`
returns in both, and the globals afterwards are the complete records of `p` applied in
order.  When `p` holds a complete record with id 1 and a non-empty value, the title is
afterwards, in both runs, the value of the last such record up to its first zero byte;
when `p` holds no such record, the title is in both runs the value it had before `p`.
Likewise the message, with id 3. -/
theorem dataSource_fields_stored_or_kept (charIsSigned : Bool) (b1 b2 : Nat → Byte) (g1 g2 : Globals) (p : List Byte) :
    ∃ r1 r2,
      dataSourceNotifyCallback charIsSigned b1 g1 p = some r1 ∧
      dataSourceNotifyCallback charIsSigned b2 g2 p = some r2 ∧
      r1.globals = applyRecords (completeRecords p) g1 ∧
      r2.globals = applyRecords (completeRecords p) g2 ∧
      (match lastStored 1 (completeRecords p) with
        | some s => r1.globals.notificationTitle = s ∧ r2.globals.notificationTitle = s
        | none =>
          r1.globals.notificationTitle = g1.notificationTitle ∧
            r2.globals.notificationTitle = g2.notificationTitle) ∧
      (match lastStored 3 (completeRecords p) with
        | some s => r1.globals.notificationMessage = s ∧ r2.globals.notificationMessage = s
        | none =>
          r1.globals.notificationMessage = g1.notificationMessage ∧
            r2.globals.notificationMessage = g2.notificationMessage) ∧
      (∀ id, lastStored id (completeRecords p) = none ↔
        ∀ r ∈ completeRecords p, r.1 = id → r.2 = []) ∧
      (∀ id s, lastStored id (completeRecords p) = some s →
        ∃ r ∈ completeRecords p, r.1 = id ∧ r.2 ≠ [] ∧ s = r.2.takeWhile (fun b => b ≠ 0)) := by
  obtain ⟨rs1, h1⟩ := attributeLoop_complete p b1 g1
  obtain ⟨rs2, h2⟩ := attributeLoop_complete p b2 g2
  obtain ⟨r1, hr1, hg1, _⟩ := dataSourceNotifyCallback_of_loop charIsSigned b1 g1 _ _ _ h1
  obtain ⟨r2, hr2, hg2, _⟩ := dataSourceNotifyCallback_of_loop charIsSigned b2 g2 _ _ _ h2
  refine ⟨r1, r2, hr1, hr2, hg1, hg2, ?_, ?_, fun id => lastStored_eq_none id _,
    fun id s => lastStored_eq_some id _ s⟩
  · have t1 := applyRecords_title (completeRecords p) g1
    have t2 := applyRecords_title (completeRecords p) g2
    rw [hg1, hg2]
    cases hl : lastStored 1 (completeRecords p) with
    | some s => rw [hl] at t1 t2; exact ⟨t1, t2⟩
    | none => rw [hl] at t1 t2; exact ⟨t1, t2⟩
  · have t1 := applyRecords_message (completeRecords p) g1
    have t2 := applyRecords_message (completeRecords p) g2
    rw [hg1, hg2]
    cases hl : lastStored 3 (completeRecords p) with
    | some s => rw [hl] at t1 t2; exact ⟨t1, t2⟩
    | none => rw [hl] at t1 t2; exact ⟨t1, t2⟩

/-- Counterexample to C4 as stated: the payload with the single record (1, "A") leaves
the message empty after no earlier response, and leaves it "B" after an earlier response
with the record (3, "B"). -/
theorem dataSource_message_depends_on_history :
    (dataSourceNotifyCallback false (fun _ => 0) initialGlobals
        [0, 42, 0, 0, 0, 1, 1, 0, 65]).map
      (fun r => r.globals.notificationMessage) = some [] ∧
    ((dataSourceNotifyCallback false (fun _ => 0) initialGlobals
        [0, 41, 0, 0, 0, 3, 1, 0, 66]).bind fun r0 =>
      (dataSourceNotifyCallback false (fun _ => 0) r0.globals
        [0, 42, 0, 0, 0, 1, 1, 0, 65]).map
      (fun r => r.globals.notificationMessage)) = some [66] := by
  decide

end IDesk
